import Mathlib

/-!
Shallow embedding of the stats-collecting core of `stupid-stats`
(`src/mod.rs`): the `StupidVisitor` AST visitor and its
`increment_args` / `compute_arg_stats` operations, together with the
depth-first traversal contract of `syntax::visit` (`walk_crate`,
`walk_item`, `walk_mac`), which recurses into every child node and
dispatches `visit_item` on item nodes and `visit_mac` on
macro-invocation nodes.

Modelling conventions:
- Rust `usize` counters are embedded as `Nat` (the program only ever
  increments them; overflow is out of scope).
- Rust `f64` arithmetic on values obtained by casting integer counts is
  embedded exactly: a float value is either a rational, `nan`, or a
  signed infinity (the constructors IEEE division can produce here);
  rounding is not modelled since every claim is about the exact
  formulas. `fdiv a b` embeds `a / b` on such values: division by zero
  yields `nan` for a zero numerator and a signed infinity otherwise.
- The syntax tree is embedded as a rose tree of the node kinds the
  visitor distinguishes: function items (carrying their declared
  parameter count, from `decl.decl.inputs.len()`), non-function items,
  macro invocations (carrying the rendered path string that
  `path_to_string` produces), and all other nodes. Children lists hold
  the nodes the default walker recurses into, in source order.
-/

/-- Embedded f64 values produced by the percent computations: an exact
rational, not-a-number, or a signed infinity. -/
inductive F where
  | nan : F
  | posInf : F
  | negInf : F
  | finite : ℚ → F
deriving DecidableEq

/-- Embedded f64 division `a / b` for exact rational operands:
`0 / 0` is `nan`, `a / 0` for nonzero `a` is a signed infinity, and
otherwise the exact quotient. -/
def fdiv (a b : ℚ) : F :=
  if b = 0 then
    if a = 0 then F.nan
    else if 0 < a then F.posInf
    else F.negInf
  else F.finite (a / b)

/-- The accumulator of `src/mod.rs` lines 116-122: the count of
`println!` invocations and the histogram of function parameter counts
(`arg_counts[k]` = number of functions with `k` arguments). -/
structure StupidVisitor where
  println_count : Nat
  arg_counts : List Nat
deriving DecidableEq

/-- The fresh accumulator built by `StupidVisitor::new` (lines 125-130). -/
def StupidVisitor.new : StupidVisitor :=
  { println_count := 0, arg_counts := [] }

/-- The state of the single left-to-right loop in `compute_arg_stats`
(lines 136-149). -/
structure LoopState where
  total : Nat
  four_or_more : Nat
  common : Nat
  common_index : Nat
deriving DecidableEq

/-- One iteration of the `for (i, &c) in self.arg_counts.iter().enumerate()`
loop of `compute_arg_stats` (lines 140-149): add `c` to `total`, add it to
`four_or_more` when `i >= 4`, and record a new strict maximum when
`c > common`. -/
def statsStep (s : LoopState) (ic : Nat × Nat) : LoopState :=
  let s1 := { s with total := s.total + ic.2 }
  let s2 := if 4 ≤ ic.1 then { s1 with four_or_more := s1.four_or_more + ic.2 } else s1
  if s2.common < ic.2 then { s2 with common := ic.2, common_index := ic.1 } else s2

/-- StupidVisitor::compute_arg_stats (lines 135-159): returns the most
common number of arguments, the percentage of functions with that
number, and the percentage of functions with four or more arguments,
the percentages computed in f64 after casting the integer counts. -/
def StupidVisitor.compute_arg_stats (v : StupidVisitor) : Nat × F × F :=
  let s := v.arg_counts.enum.foldl statsStep ⟨0, 0, 0, 0⟩
  (s.common_index,
   fdiv (100 * (s.common : ℚ)) (s.total : ℚ),
   fdiv (100 * (s.four_or_more : ℚ)) (s.total : ℚ))

/-- StupidVisitor::increment_args (lines 161-167): grow `arg_counts`
with zero-fill to length `args + 1` when it is too short (the guarded
`resize(args + 1, 0)`), then increment the entry at index `args`. -/
def StupidVisitor.increment_args (v : StupidVisitor) (args : Nat) : StupidVisitor :=
  let ac :=
    if v.arg_counts.length ≤ args then
      v.arg_counts ++ List.replicate (args + 1 - v.arg_counts.length) 0
    else v.arg_counts
  { v with arg_counts := ac.set args (ac.getD args 0 + 1) }

/-- Syntax-tree nodes as the visitor distinguishes them: a function item
with its declared parameter count, any non-function item, a macro
invocation with its rendered path string, or any other node kind
(statements, expressions, ...). Each carries the children the default
walker recurses into, in source order. -/
inductive Node where
  | fnItem : Nat → List Node → Node
  | otherItem : List Node → Node
  | macNode : String → List Node → Node
  | otherNode : List Node → Node

/-- The body of `visit_item` before it keeps walking (lines 173-177):
record the argument count if the item is a function, leave the
accumulator alone otherwise. -/
def itemHook (v : StupidVisitor) : Node → StupidVisitor
  | Node.fnItem args _ => v.increment_args args
  | _ => v

/-- The body of `visit_mac` before it keeps walking (lines 183-188):
compare the rendered macro path against "println" and bump the count on
an exact match. -/
def macHook (v : StupidVisitor) (path : String) : StupidVisitor :=
  if path = "println" then { v with println_count := v.println_count + 1 } else v

mutual

/-- Depth-first visit of one node, as driven by `syntax::visit` with the
`StupidVisitor` impl (lines 171-192): item nodes run `visit_item`
(record function arity, then `walk_item` into the children), macro
nodes run `visit_mac` (match the path, then `walk_mac` into the
children), and every other node is walked into by the default visitor
methods. -/
def visitNode (v : StupidVisitor) : Node → StupidVisitor
  | Node.fnItem args cs => visitList ((itemHook v (Node.fnItem args cs))) cs
  | Node.otherItem cs => visitList (itemHook v (Node.otherItem cs)) cs
  | Node.macNode path cs => visitList (macHook v path) cs
  | Node.otherNode cs => visitList v cs

/-- Walk a list of sibling nodes in source order, threading the
accumulator. -/
def visitList (v : StupidVisitor) : List Node → StupidVisitor
  | [] => v
  | c :: cs => visitList (visitNode v c) cs

end

mutual

/-- Number of macro-invocation nodes in a tree whose rendered path is
exactly "println". -/
def countMacs : Node → Nat
  | Node.fnItem _ cs => countMacsList cs
  | Node.otherItem cs => countMacsList cs
  | Node.macNode path cs => (if path = "println" then 1 else 0) + countMacsList cs
  | Node.otherNode cs => countMacsList cs

/-- Number of matching macro-invocation nodes in a forest. -/
def countMacsList : List Node → Nat
  | [] => 0
  | c :: cs => countMacs c + countMacsList cs

end

mutual

/-- Number of function items in a tree. -/
def countFns : Node → Nat
  | Node.fnItem _ cs => 1 + countFnsList cs
  | Node.otherItem cs => countFnsList cs
  | Node.macNode _ cs => countFnsList cs
  | Node.otherNode cs => countFnsList cs

/-- Number of function items in a forest. -/
def countFnsList : List Node → Nat
  | [] => 0
  | c :: cs => countFns c + countFnsList cs

end

/-- The report assembled in `after_analysis` (lines 99-109) from the
visitor state after the walk: the `println!` count and the three values
of `compute_arg_stats`. -/
structure Report where
  invocationCount : Nat
  modalArity : Nat
  modalArityPercent : F
  fourOrMorePercent : F
deriving DecidableEq

/-- Run one full analysis as `after_analysis` does (lines 89-109): walk
the crate (a forest of top-level nodes) with the given starting
accumulator, then finalize with `compute_arg_stats`. -/
def analyzeWith (v : StupidVisitor) (krate : List Node) : Report :=
  let v := visitList v krate
  let stats := v.compute_arg_stats
  { invocationCount := v.println_count
    modalArity := stats.1
    modalArityPercent := stats.2.1
    fourOrMorePercent := stats.2.2 }

/-- One analysis from a fresh accumulator, as `after_analysis` always
constructs it (`StupidVisitor::new()` at line 91). -/
def runAnalysis (krate : List Node) : Report :=
  analyzeWith StupidVisitor.new krate

/-! ### List helper lemmas -/

theorem getD_set_self (l : List Nat) (n a : Nat) (h : n < l.length) :
    (l.set n a).getD n 0 = a := by
  simp [List.getD]
  rw [List.getElem?_set_self]
  · simp
  · simpa using h

theorem getD_set_ne (l : List Nat) (n m a : Nat) (hnm : n ≠ m) :
    (l.set n a).getD m 0 = l.getD m 0 := by
  simp [List.getD]
  rw [List.getElem?_set_ne hnm]

theorem sum_set_add (l : List Nat) (n a : Nat) (h : n < l.length) :
    (l.set n a).sum + l.getD n 0 = l.sum + a := by
  induction l generalizing n with
  | nil => simp at h
  | cons c t ih =>
    cases n with
    | zero => simp [List.getD]; omega
    | succ m =>
      have hm : m < t.length := by simpa using h
      have := ih m hm
      simp only [List.set, List.sum_cons, List.getD_cons_succ]
      omega

theorem getD_replicate_zero (m k : Nat) : (List.replicate m (0:Nat)).getD k 0 = 0 := by
  rcases lt_or_le k m with h | h
  · rw [List.getD_eq_getElem _ _ (by simpa using h)]; simp
  · rw [List.getD_eq_default]; simpa using h

/-! ### Properties of increment_args -/

theorem increment_args_println (v : StupidVisitor) (args : Nat) :
    (v.increment_args args).println_count = v.println_count := by
  simp [StupidVisitor.increment_args]

theorem increment_args_length (v : StupidVisitor) (args : Nat) :
    v.arg_counts.length ≤ (v.increment_args args).arg_counts.length ∧
    args < (v.increment_args args).arg_counts.length := by
  simp only [StupidVisitor.increment_args, List.length_set]
  split <;> rename_i hlen <;> simp <;> omega

theorem increment_args_getD_self (v : StupidVisitor) (args : Nat) :
    (v.increment_args args).arg_counts.getD args 0 = v.arg_counts.getD args 0 + 1 := by
  simp only [StupidVisitor.increment_args]
  split <;> rename_i hlen
  · have hgrow : (v.arg_counts ++ List.replicate (args + 1 - v.arg_counts.length) 0).getD args 0
        = 0 := by
      rw [List.getD_append_right _ _ _ _ hlen, getD_replicate_zero]
    have hlen2 : args < (v.arg_counts ++ List.replicate (args + 1 - v.arg_counts.length) 0).length := by
      simp; omega
    rw [getD_set_self _ _ _ hlen2, hgrow, List.getD_eq_default _ _ hlen]
  · push_neg at hlen
    rw [getD_set_self _ _ _ hlen]

theorem increment_args_getD_ne (v : StupidVisitor) (args m : Nat) (hm : m ≠ args) :
    (v.increment_args args).arg_counts.getD m 0 = v.arg_counts.getD m 0 := by
  simp only [StupidVisitor.increment_args]
  split <;> rename_i hlen
  · rw [getD_set_ne _ _ _ _ (fun h => hm h.symm)]
    rcases lt_or_le m v.arg_counts.length with h | h
    · rw [List.getD_append _ _ _ _ h]
    · rw [List.getD_append_right _ _ _ _ h, getD_replicate_zero, List.getD_eq_default _ _ h]
  · rw [getD_set_ne _ _ _ _ (fun h => hm h.symm)]

theorem increment_args_sum (v : StupidVisitor) (args : Nat) :
    (v.increment_args args).arg_counts.sum = v.arg_counts.sum + 1 := by
  simp only [StupidVisitor.increment_args]
  split <;> rename_i hlen
  · set g := v.arg_counts ++ List.replicate (args + 1 - v.arg_counts.length) 0 with hg
    have hglen : args < g.length := by simp [hg]; omega
    have hgsum : g.sum = v.arg_counts.sum := by simp [hg]
    have := sum_set_add g args (g.getD args 0 + 1) hglen
    omega
  · push_neg at hlen
    have := sum_set_add v.arg_counts args (v.arg_counts.getD args 0 + 1) hlen
    omega

/-! ### The maximum-tracking component of the stats loop -/

/-- Projection of `statsStep` onto its `(common_index, common)`
components: keep the pair unless the new count strictly exceeds the
running maximum. -/
def maxStep (p : Nat × Nat) (ic : Nat × Nat) : Nat × Nat :=
  if p.2 < ic.2 then (ic.1, ic.2) else p

theorem statsStep_proj (s : LoopState) (ic : Nat × Nat) :
    ((statsStep s ic).common_index, (statsStep s ic).common)
      = maxStep (s.common_index, s.common) ic := by
  simp only [statsStep, maxStep]
  split <;> split <;> simp_all

theorem statsStep_total (s : LoopState) (ic : Nat × Nat) :
    (statsStep s ic).total = s.total + ic.2 := by
  simp only [statsStep]
  split <;> split <;> simp_all

theorem statsStep_four (s : LoopState) (ic : Nat × Nat) :
    (statsStep s ic).four_or_more
      = s.four_or_more + (if 4 ≤ ic.1 then ic.2 else 0) := by
  simp only [statsStep]
  split <;> split <;> simp_all

theorem foldl_statsStep_proj (l : List (Nat × Nat)) : ∀ s : LoopState,
    ((l.foldl statsStep s).common_index, (l.foldl statsStep s).common)
      = l.foldl maxStep (s.common_index, s.common) := by
  induction l with
  | nil => intro s; rfl
  | cons a t ih =>
    intro s
    rw [List.foldl_cons, List.foldl_cons, ih, statsStep_proj]

theorem foldl_statsStep_total (l : List (Nat × Nat)) : ∀ s : LoopState,
    (l.foldl statsStep s).total = s.total + (l.map Prod.snd).sum := by
  induction l with
  | nil => simp
  | cons a t ih =>
    intro s
    rw [List.foldl_cons, ih, statsStep_total]
    simp; omega

theorem foldl_statsStep_four (l : List (Nat × Nat)) : ∀ s : LoopState,
    (l.foldl statsStep s).four_or_more
      = s.four_or_more + ((l.filter (fun p => 4 ≤ p.1)).map Prod.snd).sum := by
  induction l with
  | nil => simp
  | cons a t ih =>
    intro s
    rw [List.foldl_cons, ih, statsStep_four]
    by_cases ha : 4 ≤ a.1
    · rw [List.filter_cons_of_pos (by simpa using ha)]
      simp [ha]; omega
    · rw [List.filter_cons_of_neg (by simpa using ha)]
      simp [ha]

/-- Behaviour of the left-to-right strict-maximum scan over the suffix
of a histogram enumerated from index `k`: the running maximum never
decreases, bounds every scanned entry, and the final pair is either
unchanged or points at the first entry achieving the final maximum. -/
theorem scanMax (t : List Nat) : ∀ (k : Nat) (p r : Nat × Nat),
    r = (t.enumFrom k).foldl maxStep p →
    p.2 ≤ r.2 ∧ (∀ i, i < t.length → t.getD i 0 ≤ r.2) ∧
    (r = p ∨ ∃ j, j < t.length ∧ r.1 = k + j ∧ t.getD j 0 = r.2 ∧ p.2 < r.2 ∧
      ∀ i, i < j → t.getD i 0 < r.2) := by
  induction t with
  | nil =>
    intro k p r hr
    simp only [List.enumFrom, List.foldl_nil] at hr
    subst hr
    refine ⟨le_refl _, ?_, Or.inl rfl⟩
    intro i hi; simp at hi
  | cons c t' ih =>
    intro k p r hr
    simp only [List.enumFrom, List.foldl_cons] at hr
    obtain ⟨h1, h2, h3⟩ := ih (k + 1) (maxStep p (k, c)) r hr
    by_cases hc : p.2 < c
    · have hp' : maxStep p (k, c) = (k, c) := by simp [maxStep, hc]
      rw [hp'] at h1 h3
      refine ⟨le_of_lt (lt_of_lt_of_le hc h1), ?_, ?_⟩
      · intro i hi
        cases i with
        | zero => simpa using h1
        | succ i' =>
          have : i' < t'.length := by simpa using hi
          simpa using h2 i' this
      · rcases h3 with heq | ⟨j, hj, hr1, hget, hlt, hbefore⟩
        · right
          refine ⟨0, by simp, ?_, ?_, ?_, ?_⟩
          · rw [heq]; simp
          · rw [heq]; simp
          · rw [heq]; exact hc
          · intro i hi; omega
        · right
          refine ⟨j + 1, by simpa using hj, by omega, by simpa using hget, lt_trans hc hlt, ?_⟩
          intro i hi
          cases i with
          | zero => simpa using lt_of_le_of_lt (le_refl c) hlt
          | succ i' => simpa using hbefore i' (by omega)
    · have hp' : maxStep p (k, c) = p := by simp [maxStep, hc]
      rw [hp'] at h1 h3
      push_neg at hc
      refine ⟨h1, ?_, ?_⟩
      · intro i hi
        cases i with
        | zero => simpa using le_trans hc h1
        | succ i' =>
          have : i' < t'.length := by simpa using hi
          simpa using h2 i' this
      · rcases h3 with heq | ⟨j, hj, hr1, hget, hlt, hbefore⟩
        · left; exact heq
        · right
          refine ⟨j + 1, by simpa using hj, by omega, by simpa using hget, hlt, ?_⟩
          intro i hi
          cases i with
          | zero => simpa using lt_of_le_of_lt hc hlt
          | succ i' => simpa using hbefore i' (by omega)

/-! ### Characterisation of the stats loop on a whole histogram -/

/-- The loop state reached by `compute_arg_stats` after scanning the
whole histogram. -/
def argStatsState (h : List Nat) : LoopState :=
  h.enum.foldl statsStep ⟨0, 0, 0, 0⟩

theorem compute_arg_stats_eq (v : StupidVisitor) :
    v.compute_arg_stats =
      ((argStatsState v.arg_counts).common_index,
       fdiv (100 * ((argStatsState v.arg_counts).common : ℚ))
         ((argStatsState v.arg_counts).total : ℚ),
       fdiv (100 * ((argStatsState v.arg_counts).four_or_more : ℚ))
         ((argStatsState v.arg_counts).total : ℚ)) := rfl

theorem argStatsState_total (h : List Nat) : (argStatsState h).total = h.sum := by
  have := foldl_statsStep_total h.enum ⟨0, 0, 0, 0⟩
  simpa [argStatsState, List.enum_map_snd] using this

theorem enumFrom_filter_four_sum (h : List Nat) : ∀ k : Nat,
    (((h.enumFrom k).filter (fun p => 4 ≤ p.1)).map Prod.snd).sum
      = (h.drop (4 - k)).sum := by
  induction h with
  | nil => simp
  | cons c t ih =>
    intro k
    simp only [List.enumFrom]
    by_cases hk : 4 ≤ k
    · rw [List.filter_cons_of_pos (by simpa using hk)]
      simp only [List.map_cons, List.sum_cons, ih (k + 1)]
      have e1 : 4 - k = 0 := by omega
      have e2 : 4 - (k + 1) = 0 := by omega
      simp [e1, e2]
    · rw [List.filter_cons_of_neg (by simpa using hk)]
      rw [ih (k + 1)]
      have e : 4 - k = (4 - (k + 1)) + 1 := by omega
      rw [e, List.drop_succ_cons]

theorem argStatsState_four (h : List Nat) :
    (argStatsState h).four_or_more = (h.drop 4).sum := by
  have := foldl_statsStep_four h.enum ⟨0, 0, 0, 0⟩
  have he : h.enum = h.enumFrom 0 := rfl
  rw [argStatsState, this, he, enumFrom_filter_four_sum h 0]
  simp

theorem argStatsState_max (h : List Nat) :
    ((argStatsState h).common_index, (argStatsState h).common)
      = (h.enumFrom 0).foldl maxStep (0, 0) := by
  have := foldl_statsStep_proj h.enum ⟨0, 0, 0, 0⟩
  simpa [argStatsState] using this

/-- The modal-arity properties of the loop: the selected index carries
the running maximum, that maximum dominates every histogram entry, and
every entry strictly before the selected index is strictly below it. -/
theorem argStatsState_modal (h : List Nat) :
    h.getD (argStatsState h).common_index 0 = (argStatsState h).common ∧
    (∀ i, i < h.length → h.getD i 0 ≤ (argStatsState h).common) ∧
    (∀ i, i < (argStatsState h).common_index →
      h.getD i 0 < (argStatsState h).common) := by
  obtain ⟨h1, h2, h3⟩ := scanMax h 0 (0, 0) ((h.enumFrom 0).foldl maxStep (0, 0)) rfl
  have hm := argStatsState_max h
  have hm1 : (argStatsState h).common_index = ((h.enumFrom 0).foldl maxStep (0, 0)).1 := by
    rw [← hm]
  have hm2 : (argStatsState h).common = ((h.enumFrom 0).foldl maxStep (0, 0)).2 := by
    rw [← hm]
  rcases h3 with heq | ⟨j, hj, hr1, hget, hlt, hbefore⟩
  · have hi0 : (argStatsState h).common_index = 0 := by rw [hm1, heq]
    have hc0 : (argStatsState h).common = 0 := by rw [hm2, heq]
    refine ⟨?_, ?_, ?_⟩
    · rw [hi0, hc0]
      cases h with
      | nil => rfl
      | cons c t =>
        have := h2 0 (by simp)
        rw [heq] at this
        simpa using Nat.le_antisymm this (Nat.zero_le _)
    · intro i hi
      rw [hc0]
      have := h2 i hi
      rw [heq] at this
      simpa using this
    · intro i hi
      rw [hi0] at hi
      omega
  · refine ⟨?_, ?_, ?_⟩
    · rw [hm1, hr1, hm2]
      simpa using hget
    · intro i hi
      rw [hm2]
      exact h2 i hi
    · intro i hi
      rw [hm1, hr1] at hi
      rw [hm2]
      exact hbefore i (by omega)

/-- On an all-zero histogram the loop never updates anything but the
total, so the final state is all zeros. -/
theorem argStatsState_zero (h : List Nat) (hz : ∀ c ∈ h, c = 0) :
    argStatsState h = ⟨0, 0, 0, 0⟩ := by
  have hzsum : h.sum = 0 := List.sum_eq_zero hz
  have ht : (argStatsState h).total = 0 := by rw [argStatsState_total, hzsum]
  have hf : (argStatsState h).four_or_more = 0 := by
    rw [argStatsState_four]
    exact List.sum_eq_zero (fun c hc => hz c (List.mem_of_mem_drop hc))
  obtain ⟨hsel, hub, hlt⟩ := argStatsState_modal h
  have hc : (argStatsState h).common = 0 := by
    rcases Nat.eq_zero_or_pos (argStatsState h).common with h0 | hpos
    · exact h0
    · exfalso
      obtain ⟨h1, h2, h3⟩ := scanMax h 0 (0, 0) ((h.enumFrom 0).foldl maxStep (0, 0)) rfl
      have hm := argStatsState_max h
      rcases h3 with heq | ⟨j, hj, hr1, hget, hlt2, hbefore⟩
      · have : (argStatsState h).common = 0 := by
          have : ((h.enumFrom 0).foldl maxStep (0, 0)).2 = 0 := by rw [heq]
          rw [← this, ← hm]
        omega
      · have hjz : h.getD j 0 = 0 := by
          rw [List.getD_eq_getElem _ _ hj]
          exact hz _ (List.getElem_mem hj)
        have : ((h.enumFrom 0).foldl maxStep (0, 0)).2 = 0 := by rw [← hget, hjz]
        have hcc : (argStatsState h).common = 0 := by rw [← this, ← hm]
        omega
  have hi : (argStatsState h).common_index = 0 := by
    obtain ⟨h1, h2, h3⟩ := scanMax h 0 (0, 0) ((h.enumFrom 0).foldl maxStep (0, 0)) rfl
    have hm := argStatsState_max h
    rcases h3 with heq | ⟨j, hj, hr1, hget, hlt2, hbefore⟩
    · have : ((h.enumFrom 0).foldl maxStep (0, 0)).1 = 0 := by rw [heq]
      rw [← this, ← hm]
    · exfalso
      have hcc : ((h.enumFrom 0).foldl maxStep (0, 0)).2 = (argStatsState h).common := by
        rw [← hm]
      rw [hcc, hc] at hlt2
      omega
  cases hstate : argStatsState h
  simp_all

/-! ### Hook-level facts -/

theorem itemHook_println (v : StupidVisitor) (n : Node) :
    (itemHook v n).println_count = v.println_count := by
  cases n <;> simp [itemHook, increment_args_println]

theorem macHook_arg_counts (v : StupidVisitor) (p : String) :
    (macHook v p).arg_counts = v.arg_counts := by
  unfold macHook
  split <;> rfl

theorem macHook_println (v : StupidVisitor) (p : String) :
    (macHook v p).println_count
      = v.println_count + (if p = "println" then 1 else 0) := by
  unfold macHook
  split <;> simp

/-! ### Traversal-level facts, by mutual induction on the tree -/

mutual

theorem visitNode_println (v : StupidVisitor) (n : Node) :
    (visitNode v n).println_count = v.println_count + countMacs n := by
  cases n with
  | fnItem args cs =>
    rw [show visitNode v (Node.fnItem args cs)
        = visitList (itemHook v (Node.fnItem args cs)) cs from by simp [visitNode]]
    rw [visitList_println, itemHook_println]
    simp [countMacs]
  | otherItem cs =>
    rw [show visitNode v (Node.otherItem cs)
        = visitList (itemHook v (Node.otherItem cs)) cs from by simp [visitNode]]
    rw [visitList_println, itemHook_println]
    simp [countMacs]
  | macNode p cs =>
    rw [show visitNode v (Node.macNode p cs)
        = visitList (macHook v p) cs from by simp [visitNode]]
    rw [visitList_println, macHook_println]
    simp [countMacs]
    omega
  | otherNode cs =>
    rw [show visitNode v (Node.otherNode cs) = visitList v cs from by simp [visitNode]]
    rw [visitList_println]
    simp [countMacs]

theorem visitList_println (v : StupidVisitor) (l : List Node) :
    (visitList v l).println_count = v.println_count + countMacsList l := by
  cases l with
  | nil => simp [visitList, countMacsList]
  | cons c cs =>
    rw [show visitList v (c :: cs) = visitList (visitNode v c) cs from by simp [visitList]]
    rw [visitList_println, visitNode_println]
    simp [countMacsList]
    omega

end

mutual

theorem visitNode_sum (v : StupidVisitor) (n : Node) :
    (visitNode v n).arg_counts.sum = v.arg_counts.sum + countFns n := by
  cases n with
  | fnItem args cs =>
    rw [show visitNode v (Node.fnItem args cs)
        = visitList (itemHook v (Node.fnItem args cs)) cs from by simp [visitNode]]
    rw [visitList_sum]
    simp [itemHook, increment_args_sum, countFns]
    omega
  | otherItem cs =>
    rw [show visitNode v (Node.otherItem cs)
        = visitList (itemHook v (Node.otherItem cs)) cs from by simp [visitNode]]
    rw [visitList_sum]
    simp [itemHook, countFns]
  | macNode p cs =>
    rw [show visitNode v (Node.macNode p cs)
        = visitList (macHook v p) cs from by simp [visitNode]]
    rw [visitList_sum, macHook_arg_counts]
    simp [countFns]
  | otherNode cs =>
    rw [show visitNode v (Node.otherNode cs) = visitList v cs from by simp [visitNode]]
    rw [visitList_sum]
    simp [countFns]

theorem visitList_sum (v : StupidVisitor) (l : List Node) :
    (visitList v l).arg_counts.sum = v.arg_counts.sum + countFnsList l := by
  cases l with
  | nil => simp [visitList, countFnsList]
  | cons c cs =>
    rw [show visitList v (c :: cs) = visitList (visitNode v c) cs from by simp [visitList]]
    rw [visitList_sum, visitNode_sum]
    simp [countFnsList]
    omega

end

/-! ### Claim theorems -/

/-- C1: finalize (compute_arg_stats) selects the modal arity as the
index of the strictly largest count in the arity histogram, breaking
ties in favour of the first (lowest) index achieving the maximum: the
selected entry dominates every histogram entry and strictly dominates
every entry at a lower index; for the histogram [2,5,5,1] the modal
arity is 1, not 2. -/
theorem modal_arity_is_first_strict_max (pc : Nat) (h : List Nat) :
    (∀ i, i < h.length →
        h.getD i 0 ≤ h.getD ((StupidVisitor.mk pc h).compute_arg_stats.1) 0) ∧
    (∀ i, i < (StupidVisitor.mk pc h).compute_arg_stats.1 →
        h.getD i 0 < h.getD ((StupidVisitor.mk pc h).compute_arg_stats.1) 0) ∧
    (StupidVisitor.mk 0 [2, 5, 5, 1]).compute_arg_stats.1 = 1 := by
  have h1 : (StupidVisitor.mk pc h).compute_arg_stats.1
      = (argStatsState h).common_index := by
    rw [compute_arg_stats_eq]
  obtain ⟨hsel, hub, hlt⟩ := argStatsState_modal h
  refine ⟨?_, ?_, by decide⟩
  · intro i hi
    rw [h1, hsel]
    exact hub i hi
  · intro i hi
    rw [h1] at hi ⊢
    rw [hsel]
    exact hlt i hi

theorem modal_arity_is_first_strict_max_witness :
    (StupidVisitor.mk 0 [2, 5, 5, 1]).compute_arg_stats.1 = 1 :=
  (modal_arity_is_first_strict_max 0 [2, 5, 5, 1]).2.2

/-- C2: for every arity histogram with at least one recorded function,
compute_arg_stats returns a fourOrMorePercent equal to 100 times the
sum of the counts at indices 4 and above divided by the total of all
counts; for the histogram [1,1,1,1,1,1] the result is 100 * 2 / 6. -/
theorem four_or_more_percent_formula (pc : Nat) (h : List Nat) (hpos : 0 < h.sum) :
    (StupidVisitor.mk pc h).compute_arg_stats.2.2
      = F.finite (100 * (((h.drop 4).sum : ℚ)) / ((h.sum : ℚ))) ∧
    (StupidVisitor.mk 0 [1, 1, 1, 1, 1, 1]).compute_arg_stats.2.2
      = F.finite (100 * 2 / 6) := by
  constructor
  · have hne : ((h.sum : ℚ)) ≠ 0 := by
      exact_mod_cast Nat.pos_iff_ne_zero.mp hpos
    rw [compute_arg_stats_eq]
    dsimp only
    rw [argStatsState_four, argStatsState_total]
    unfold fdiv
    rw [if_neg hne]
  · simp [StupidVisitor.compute_arg_stats, List.enum, List.enumFrom, statsStep, fdiv]

theorem four_or_more_percent_formula_witness :
    0 < ([1, 1, 1, 1, 1, 1] : List Nat).sum ∧
    (StupidVisitor.mk 0 [1, 1, 1, 1, 1, 1]).compute_arg_stats.2.2
      = F.finite (100 * 2 / 6) :=
  ⟨by decide, (four_or_more_percent_formula 0 [1, 1, 1, 1, 1, 1] (by decide)).2⟩

/-- C3 counterexample: on a tree with zero function items the analysis
does not signal any error and does not return a sentinel distinct from
the division-by-zero value: both percentage fields of the report are
exactly the f64 value produced by dividing zero by zero. -/
theorem zero_functions_nan_counterexample :
    runAnalysis [] = ⟨0, 0, F.nan, F.nan⟩ ∧ F.nan = fdiv 0 0 := by
  constructor
  · simp [runAnalysis, analyzeWith, visitList, StupidVisitor.new,
      StupidVisitor.compute_arg_stats, List.enum, List.enumFrom, fdiv]
  · simp [fdiv]

/-- C3 (amended): for every tree with zero function items, finalize
does not panic and deterministically returns modal arity 0 together
with not-a-number for both percentages (the f64 result of 0/0),
propagating NaN instead of signalling EmptyInput or any documented
sentinel. -/
theorem zero_functions_yields_nan (pc : Nat) (h : List Nat) (hsum : h.sum = 0) :
    (StupidVisitor.mk pc h).compute_arg_stats = (0, F.nan, F.nan) := by
  have hz : ∀ c ∈ h, c = 0 := by
    intro c hc
    have := List.sum_eq_zero_iff.mp hsum
    exact this c hc
  rw [compute_arg_stats_eq, argStatsState_zero h hz]
  simp [fdiv]

theorem zero_functions_yields_nan_witness :
    ([0, 0] : List Nat).sum = 0 ∧
    (StupidVisitor.mk 0 [0, 0]).compute_arg_stats = (0, F.nan, F.nan) :=
  ⟨by decide, zero_functions_yields_nan 0 [0, 0] (by decide)⟩

/-- C4: macro-invocation matching is exact and case-sensitive on the
fully rendered path string: the count is incremented if and only if the
rendered path equals "println" exactly, and the tree with invocations
named print, Println and println yields invocationCount 1. -/
theorem macro_match_exact_case_sensitive :
    (∀ (v : StupidVisitor) (p : String),
        (macHook v p).println_count = v.println_count + 1 ↔ p = "println") ∧
    (∀ (v : StupidVisitor) (p : String), p ≠ "println" →
        (macHook v p).println_count = v.println_count) ∧
    (runAnalysis [Node.macNode "print" [], Node.macNode "Println" [],
        Node.macNode "println" []]).invocationCount = 1 := by
  refine ⟨?_, ?_, ?_⟩
  · intro v p
    unfold macHook
    split <;> rename_i hp
    · simp [hp]
    · simp [hp]
  · intro v p hp
    unfold macHook
    rw [if_neg hp]
  · simp [runAnalysis, analyzeWith, visitList, visitNode, macHook, StupidVisitor.new]

theorem macro_match_exact_case_sensitive_witness :
    (runAnalysis [Node.macNode "print" [], Node.macNode "Println" [],
        Node.macNode "println" []]).invocationCount = 1 :=
  macro_match_exact_case_sensitive.2.2

/-- C5: the walker visits every macro-invocation node anywhere in the
tree, so the final count equals the number of matching invocations in
the whole forest; a tree with one matching invocation inside a function
body, one inside a nested module and one inside another macro's
arguments yields invocationCount 3. -/
theorem all_nested_macs_counted :
    (∀ (v : StupidVisitor) (l : List Node),
        (visitList v l).println_count = v.println_count + countMacsList l) ∧
    (runAnalysis
        [Node.fnItem 0 [Node.macNode "println" []],
         Node.otherItem [Node.otherItem [Node.macNode "println" []]],
         Node.macNode "foo" [Node.macNode "println" []]]).invocationCount = 3 := by
  refine ⟨visitList_println, ?_⟩
  simp [runAnalysis, analyzeWith, visitList, visitNode, macHook, itemHook,
    StupidVisitor.increment_args, StupidVisitor.new]

/-- C6: for every starting accumulator and every forest, after the walk
the sum of the arity histogram has grown by exactly the number of
function items in the forest; from a fresh accumulator the final sum is
exactly the number of function items visited. -/
theorem histogram_sum_eq_functions_visited (v : StupidVisitor) (l : List Node) :
    (visitList v l).arg_counts.sum = v.arg_counts.sum + countFnsList l ∧
    (visitList StupidVisitor.new l).arg_counts.sum = countFnsList l := by
  refine ⟨visitList_sum v l, ?_⟩
  have := visitList_sum StupidVisitor.new l
  simpa [StupidVisitor.new] using this

/-- C7: visiting a non-function item leaves the arity histogram exactly
as the walk of its children leaves it (the item itself contributes
nothing), and the walker still descends into the children; a childless
non-function item leaves the whole accumulator untouched. -/
theorem non_function_item_frame (v : StupidVisitor) (cs : List Node) :
    visitNode v (Node.otherItem cs) = visitList v cs ∧
    visitNode v (Node.otherItem []) = v := by
  constructor
  · simp [visitNode, itemHook]
  · simp [visitNode, visitList, itemHook]

/-- C8: increment_args increments the histogram entry at index n by
one, leaves every other index unchanged, only ever grows the sequence
(never shrinks it), and enforces no upper bound on n: after the call
index n is always within the sequence. -/
theorem increment_args_spec (v : StupidVisitor) (n : Nat) :
    (v.increment_args n).arg_counts.getD n 0 = v.arg_counts.getD n 0 + 1 ∧
    (∀ m, m ≠ n → (v.increment_args n).arg_counts.getD m 0 = v.arg_counts.getD m 0) ∧
    v.arg_counts.length ≤ (v.increment_args n).arg_counts.length ∧
    n < (v.increment_args n).arg_counts.length :=
  ⟨increment_args_getD_self v n, fun m hm => increment_args_getD_ne v n m hm,
   (increment_args_length v n).1, (increment_args_length v n).2⟩

theorem increment_args_spec_witness :
    (StupidVisitor.increment_args ⟨0, [1]⟩ 3).arg_counts.getD 3 0
        = (StupidVisitor.mk 0 [1]).arg_counts.getD 3 0 + 1 ∧
    (StupidVisitor.increment_args ⟨0, [1]⟩ 3).arg_counts.getD 0 0
        = (StupidVisitor.mk 0 [1]).arg_counts.getD 0 0 ∧
    (StupidVisitor.mk 0 [1]).arg_counts.length
        ≤ (StupidVisitor.increment_args ⟨0, [1]⟩ 3).arg_counts.length ∧
    3 < (StupidVisitor.increment_args ⟨0, [1]⟩ 3).arg_counts.length :=
  ⟨(increment_args_spec ⟨0, [1]⟩ 3).1,
   (increment_args_spec ⟨0, [1]⟩ 3).2.1 0 (by decide),
   (increment_args_spec ⟨0, [1]⟩ 3).2.2.1,
   (increment_args_spec ⟨0, [1]⟩ 3).2.2.2⟩

/-- C9: the analysis is deterministic: two runs over the same tree,
each from a fresh accumulator as after_analysis always constructs it,
produce identical Reports (the embedded analysis is a pure function of
the tree, with no other input). -/
theorem analysis_deterministic (t : List Node) (v1 v2 : StupidVisitor)
    (h1 : v1 = StupidVisitor.new) (h2 : v2 = StupidVisitor.new) :
    analyzeWith v1 t = analyzeWith v2 t := by
  rw [h1, h2]

theorem analysis_deterministic_witness :
    analyzeWith StupidVisitor.new [Node.fnItem 1 []]
      = analyzeWith StupidVisitor.new [Node.fnItem 1 []] :=
  analysis_deterministic [Node.fnItem 1 []] StupidVisitor.new StupidVisitor.new rfl rfl

/-- C10: when the arity histogram is empty or all entries are zero,
compute_arg_stats is total (no panic, no out-of-bounds indexing in the
embedding, which indexes nothing): the left-to-right scan never updates
the modal index, so the result is modal arity 0 together with the two
not-a-number values produced by the f64 division 100 * 0 / 0. -/
theorem empty_histogram_no_panic (pc : Nat) (h : List Nat) (hz : ∀ c ∈ h, c = 0) :
    (StupidVisitor.mk pc h).compute_arg_stats = (0, F.nan, F.nan) := by
  rw [compute_arg_stats_eq, argStatsState_zero h hz]
  simp [fdiv]

theorem empty_histogram_no_panic_witness :
    (∀ c ∈ ([] : List Nat), c = 0) ∧
    (StupidVisitor.mk 7 []).compute_arg_stats = (0, F.nan, F.nan) :=
  ⟨by simp, empty_histogram_no_panic 7 [] (by simp)⟩
